import Mathlib

/-!
Verification development for the pinyin keyboard-component prediction core.

The repository ships the plugin shell `src/plugins/pinyin/src/pinyinplugin.h`
(class `PinyinPlugin`), whose inline member bodies are embedded here verbatim.
The engine classes it references (`PinyinAdapter`, `ChineseLanguageFeatures`,
the Lexicon Index, Segmenter and Context Scorer) are not part of the sources;
their behaviour is modelled from the specification, with each such definition
marked `Modelled from the spec:` in its doc comment.
-/

namespace KeyboardComponent

/-- Modelled from the spec: a Syllable is a normalized phonetic token. -/
abbrev Syllable := String

/-- Modelled from the spec: a SyllableSequence is an ordered sequence of
Syllable; equality is sequence-wise. -/
abbrev SyllableSequence := List Syllable

/-- Modelled from the spec: a LexiconEntry is
{ key : SyllableSequence, word : string, baseScore : numeric }. -/
structure LexiconEntry where
  key : SyllableSequence
  word : String
  baseScore : Int
  deriving Repr, DecidableEq

/-- Modelled from the spec: the Lexicon Index, a dictionary mapping phonetic
syllable sequences to candidate words with base frequency scores (the missing
`PinyinAdapter` dictionary). Represented as the list of its entries. -/
abbrev Lexicon := List LexiconEntry

/-- Modelled from the spec: LexiconEntry keys are never duplicated for the
same (SyllableSequence, word) pair; a new observation increments baseScore
rather than inserting a duplicate. -/
def Lexicon.insert (lex : Lexicon) (e : LexiconEntry) : Lexicon :=
  if lex.any (fun d => d.key = e.key ∧ d.word = e.word) then
    lex.map (fun d =>
      if d.key = e.key ∧ d.word = e.word then
        { d with baseScore := d.baseScore + e.baseScore }
      else d)
  else
    lex ++ [e]

/-- Modelled from the spec: exact-match mode of
`lookup(sequence: SyllableSequence) -> set of LexiconEntry`. -/
def Lexicon.lookupExact (lex : Lexicon) (s : SyllableSequence) : List LexiconEntry :=
  lex.filter (fun d => d.key = s)

/-- Modelled from the spec: prefix-match mode of `lookup` (the queried
sequence may be a prefix of a longer intended word's key; exact matches
are included). -/
def Lexicon.lookup (lex : Lexicon) (s : SyllableSequence) : List LexiconEntry :=
  lex.filter (fun d => s.isPrefixOf d.key)

/-- Modelled from the spec: `reinforce(sequence, word)` increments baseScore
for the matching entry; fails (no-op) if no matching entry exists. -/
def Lexicon.reinforce (lex : Lexicon) (s : SyllableSequence) (w : String) : Lexicon :=
  if lex.any (fun d => d.key = s ∧ d.word = w) then
    lex.map (fun d =>
      if d.key = s ∧ d.word = w then { d with baseScore := d.baseScore + 1 } else d)
  else
    lex

/-- Modelled from the spec: the ContextModel, a mapping from precedingWord
context keys to a boost applied to candidates whose word follows that context
historically. Represented as an association list keyed by (contextKey, word). -/
structure ContextModel where
  boosts : List ((String × String) × Int)
  deriving Repr, DecidableEq

/-- Modelled from the spec: the boost stored for (contextKey, word);
contextScore defaults to 0 when no context match exists. -/
def ContextModel.boost (m : ContextModel) (ck w : String) : Int :=
  match m.boosts.find? (fun p => p.1 = (ck, w)) with
  | some p => p.2
  | none => 0

/-- Modelled from the spec: feedback updates the ContextModel to boost
(context-key, word) for the context used in that prediction. -/
def ContextModel.reinforce (m : ContextModel) (ck w : String) : ContextModel :=
  if m.boosts.any (fun p => p.1 = (ck, w)) then
    ⟨m.boosts.map (fun p => if p.1 = (ck, w) then (p.1, p.2 + 1) else p)⟩
  else
    ⟨m.boosts ++ [((ck, w), 1)]⟩

/-- Modelled from the spec: a Candidate is { word, sourceSequence, baseScore,
contextScore, combinedRank }, created per prediction request. -/
structure Candidate where
  word : String
  sourceSequence : SyllableSequence
  baseScore : Int
  contextScore : Int
  combinedRank : Int
  deriving Repr, DecidableEq

/-- Modelled from the spec: the configurable weights w1 and w2 of the
Context Scorer's combination rule. -/
structure ScoreWeights where
  w1 : Int
  w2 : Int
  deriving Repr, DecidableEq

/-- Modelled from the spec: the Context Scorer populates one candidate's
contextScore from the ContextModel (0 when no context match exists) and sets
combinedRank = baseScore * w1 + contextScore * w2. -/
def scoreCandidate (wts : ScoreWeights) (m : ContextModel) (ck : String)
    (c : Candidate) : Candidate :=
  let ctx := m.boost ck c.word
  { c with contextScore := ctx, combinedRank := c.baseScore * wts.w1 + ctx * wts.w2 }

/-- Modelled from the spec: `score(candidates, surroundingLeft)` returns the
same candidates with contextScore and combinedRank populated. -/
def scoreCandidates (wts : ScoreWeights) (m : ContextModel) (ck : String)
    (cs : List Candidate) : List Candidate :=
  cs.map (scoreCandidate wts m ck)

/-- Modelled from the spec: the sort key of a scored candidate, descending
combinedRank with ties broken by baseScore: `rankLt c d` holds when `c`
ranks strictly below `d`. -/
def rankLt (c d : Candidate) : Prop :=
  c.combinedRank < d.combinedRank ∨
    (c.combinedRank = d.combinedRank ∧ c.baseScore < d.baseScore)

instance : DecidableRel rankLt := fun c d => by
  unfold rankLt; infer_instance

/-- C5: for every candidate, the Context Scorer computes
combinedRank = baseScore * w1 + contextScore * w2; when no context match
exists for any candidate, each contextScore is 0, combinedRank degrades to
baseScore * w1, and the ranking over such candidates is determined purely
by baseScore (via the combinedRank/baseScore sort key), without error. -/
theorem contextScorer_formula_and_coldstart (wts : ScoreWeights) (m : ContextModel)
    (ck : String) (cs : List Candidate) (hw1 : 0 ≤ wts.w1) :
    (∀ c ∈ scoreCandidates wts m ck cs,
        c.combinedRank = c.baseScore * wts.w1 + c.contextScore * wts.w2) ∧
    ((∀ c ∈ cs, m.boosts.find? (fun p => p.1 = (ck, c.word)) = none) →
      (∀ c ∈ scoreCandidates wts m ck cs,
          c.contextScore = 0 ∧ c.combinedRank = c.baseScore * wts.w1) ∧
      (∀ c ∈ scoreCandidates wts m ck cs, ∀ d ∈ scoreCandidates wts m ck cs,
          (rankLt c d ↔ c.baseScore < d.baseScore))) := by
  constructor
  · intro c hc
    rw [scoreCandidates, List.mem_map] at hc
    obtain ⟨c0, _, rfl⟩ := hc
    simp [scoreCandidate]
  · intro hnone
    have hcold : ∀ c ∈ scoreCandidates wts m ck cs,
        c.contextScore = 0 ∧ c.combinedRank = c.baseScore * wts.w1 := by
      intro c hc
      rw [scoreCandidates, List.mem_map] at hc
      obtain ⟨c0, hc0, rfl⟩ := hc
      have hb : m.boost ck c0.word = 0 := by
        rw [ContextModel.boost, hnone c0 hc0]
      simp [scoreCandidate, hb]
    refine ⟨hcold, ?_⟩
    intro c hc d hd
    obtain ⟨hc0, hcr⟩ := hcold c hc
    obtain ⟨hd0, hdr⟩ := hcold d hd
    rw [rankLt, hcr, hdr]
    constructor
    · rintro (hlt | ⟨heq, hbase⟩)
      · by_contra hle
        push_neg at hle
        exact absurd (mul_le_mul_of_nonneg_right hle hw1) (not_le.mpr hlt)
      · exact hbase
    · intro hbase
      rcases hw1.lt_or_eq with hpos | hzero
      · exact Or.inl (mul_lt_mul_of_pos_right hbase hpos)
      · exact Or.inr ⟨by rw [← hzero]; ring, hbase⟩

/-- Witness for `contextScorer_formula_and_coldstart` at a concrete state. -/
theorem contextScorer_formula_and_coldstart_witness :
    ((⟨[((" ", "a"), 3)]⟩ : ContextModel).boosts.find?
        (fun p => p.1 = ("x", Candidate.word ⟨"b", ["b"], 5, 0, 0⟩)) = none) ∧
    ∀ c ∈ scoreCandidates ⟨2, 1⟩ ⟨[((" ", "a"), 3)]⟩ "x" [⟨"b", ["b"], 5, 0, 0⟩],
      c.contextScore = 0 ∧ c.combinedRank = c.baseScore * (2 : Int) := by
  have h := contextScorer_formula_and_coldstart ⟨2, 1⟩ ⟨[((" ", "a"), 3)]⟩ "x"
      [⟨"b", ["b"], 5, 0, 0⟩] (by decide)
  have hnone : ∀ c ∈ [(⟨"b", ["b"], 5, 0, 0⟩ : Candidate)],
      (⟨[((" ", "a"), 3)]⟩ : ContextModel).boosts.find?
        (fun p => p.1 = ("x", c.word)) = none := by decide
  exact ⟨hnone _ (by decide), (h.2 hnone).1⟩

/-- Modelled from the spec: the `ChineseLanguageFeatures` capability object
declared (but not defined) in `pinyinplugin.h`: read-only queries for the
valid syllable alphabet, the maximum suggestion count, tone significance,
and the language id the host negotiates. -/
structure ChineseLanguageFeaturesState where
  validSyllables : List String
  maxSuggestions : Nat
  tonesSignificant : Bool
  languageId : String
  acceptedLanguageIds : List String
  deriving Repr, DecidableEq

/-- Modelled from the spec: the Segmenter's backtracking over the
valid-syllable alphabet on a non-empty remainder; a remainder no alphabet
syllable matches yields zero segmentations. Fuel bounds the recursion by
the remaining character count. -/
def segmentSuffix (alphabet : List String) : Nat → List Char → List SyllableSequence
  | _, [] => [[]]
  | 0, _ :: _ => []
  | fuel + 1, c :: cs =>
      (alphabet.filter (fun syl => !syl.isEmpty && syl.toList.isPrefixOf (c :: cs))).foldr
        (fun syl acc =>
          ((segmentSuffix alphabet fuel ((c :: cs).drop syl.toList.length)).map
            (fun rest => syl :: rest)) ++ acc) []

/-- Modelled from the spec: `segment(preedit) -> sequence of
SyllableSequence`; an empty preedit has no phonetic content and yields zero
segmentations (the spec's boundary: empty preedit yields an empty suggestion
list). -/
def segment (alphabet : List String) (preedit : String) : List SyllableSequence :=
  if preedit.isEmpty then []
  else segmentSuffix alphabet preedit.length preedit.toList

/-- Modelled from the spec: per segmentation, the Lexicon Index returns
candidate words; each LexiconEntry found becomes a Candidate with its
baseScore and source sequence, scores not yet populated. -/
def candidatesOfSegmentations (lex : Lexicon) (segs : List SyllableSequence) :
    List Candidate :=
  segs.foldr
    (fun s acc =>
      ((lex.lookup s).map (fun e =>
        { word := e.word, sourceSequence := e.key, baseScore := e.baseScore,
          contextScore := 0, combinedRank := 0 })) ++ acc)
    []

/-- Modelled from the spec: the Adapter merges and deduplicates candidates
by word, keeping the first occurrence. -/
def dedupeByWord (cs : List Candidate) : List Candidate :=
  cs.foldl (fun acc c => if acc.any (fun d => d.word = c.word) then acc else acc ++ [c]) []

/-- Modelled from the spec: the Context Scorer extracts the last committed
character of `surroundingLeft` as the context key (character granularity,
since word boundaries in committed Chinese text are not reliably known). -/
def contextKey (surroundingLeft : String) : String :=
  match surroundingLeft.toList.getLast? with
  | some c => String.mk [c]
  | none => ""

/-- Modelled from the spec: the emission order over indexed candidates —
`candBefore a b` holds when `a` may precede `b`: strictly higher
combinedRank first, ties broken by higher baseScore, then by insertion
order (the index in the pre-sort candidate list). -/
def candBefore (a b : Nat × Candidate) : Prop :=
  b.2.combinedRank < a.2.combinedRank ∨
    (b.2.combinedRank = a.2.combinedRank ∧
      (b.2.baseScore < a.2.baseScore ∨
        (b.2.baseScore = a.2.baseScore ∧ a.1 ≤ b.1)))

instance : DecidableRel candBefore := fun a b => by
  unfold candBefore; infer_instance

instance : IsTotal (Nat × Candidate) candBefore := by
  constructor
  intro a b
  unfold candBefore
  omega

instance : IsTrans (Nat × Candidate) candBefore := by
  constructor
  intro a b c hab hbc
  unfold candBefore at hab hbc ⊢
  omega

/-- Modelled from the spec: the Adapter sorts the scored candidate set for
emission, tagging each candidate with its insertion index so that full
ties keep insertion order. -/
def rankCandidates (cs : List Candidate) : List (Nat × Candidate) :=
  List.insertionSort candBefore cs.enum

/-- Modelled from the spec: PredictionResult { word, suggestions }; the word
field denotes which preedit the suggestions answer. -/
structure PredictionResult where
  word : String
  suggestions : List String
  deriving Repr, DecidableEq

/-- Modelled from the spec: `predict(surroundingLeft, preedit)` — the
Adapter runs the Segmenter, per-segmentation Lexicon Index lookups, merges
and deduplicates candidates by word, runs the Context Scorer, sorts, and
truncates to the configured maximum suggestion count. -/
def predict (lf : ChineseLanguageFeaturesState) (wts : ScoreWeights)
    (m : ContextModel) (lex : Lexicon)
    (surroundingLeft preedit : String) : PredictionResult :=
  let segs := segment lf.validSyllables preedit
  let merged := dedupeByWord (candidatesOfSegmentations lex segs)
  let scored := scoreCandidates wts m (contextKey surroundingLeft) merged
  { word := preedit,
    suggestions := ((rankCandidates scored).map (fun p => p.2.word)).take lf.maxSuggestions }

/-- C1: every suggestion list emitted by predict comes from `rankCandidates`,
and for any candidate set `rankCandidates` is sorted by the `candBefore`
order: descending combinedRank, ties broken by baseScore, then by insertion
order. -/
theorem predict_suggestions_sorted :
    (∀ cs : List Candidate, List.Sorted candBefore (rankCandidates cs)) ∧
    (∀ lf wts m lex ctx pre,
      (predict lf wts m lex ctx pre).suggestions =
        ((rankCandidates (scoreCandidates wts m (contextKey ctx)
            (dedupeByWord (candidatesOfSegmentations lex
              (segment lf.validSyllables pre))))).map
          (fun p => p.2.word)).take lf.maxSuggestions) :=
  ⟨fun cs => List.sorted_insertionSort candBefore cs.enum,
   fun _ _ _ _ _ _ => rfl⟩

/-- C7: for every surroundingLeft, predict with an empty preedit delivers an
empty suggestion list (and, being a total function, signals no error). -/
theorem predict_empty_preedit (lf : ChineseLanguageFeaturesState)
    (wts : ScoreWeights) (m : ContextModel) (lex : Lexicon) (ctx : String) :
    predict lf wts m lex ctx "" = { word := "", suggestions := [] } := by
  have h : (rankCandidates (scoreCandidates wts m (contextKey ctx)
      (dedupeByWord (candidatesOfSegmentations lex
        (segment lf.validSyllables ""))))).map (fun p => p.2.word) = [] := rfl
  simp [predict, h]

/-- Modelled from the spec: the Adapter's persistent state — the Lexicon
Index and ContextModel (constructed once, process lifetime), plus the most
recently delivered candidates and the context key used for them. -/
structure AdapterState where
  lexicon : Lexicon
  contextModel : ContextModel
  lastCandidates : List Candidate
  lastContextKey : String
  deriving Repr, DecidableEq

/-- Modelled from the spec: `wordCandidateSelected(word)` looks up `word`
among the most recently delivered candidates; if found, calls Lexicon Index
`reinforce` with that candidate's sourceSequence and updates the
ContextModel to boost (context-key, word); if not found (host/adapter
desynchronization) the call is a no-op and never guesses a nearest match. -/
def wordCandidateSelected (st : AdapterState) (w : String) : AdapterState :=
  match st.lastCandidates.find? (fun c => c.word = w) with
  | some c =>
      { st with
        lexicon := st.lexicon.reinforce c.sourceSequence w,
        contextModel := st.contextModel.reinforce st.lastContextKey w }
  | none => st

/-- C4: for every word not contained in the most recently delivered
candidate list, wordCandidateSelected is a no-op: the whole Adapter state
(Lexicon Index, ContextModel, delivered candidates) is unchanged, so no
nearest match is selected and no fatal error is raised. -/
theorem wordCandidateSelected_desync_noop (st : AdapterState) (w : String)
    (h : ∀ c ∈ st.lastCandidates, c.word ≠ w) :
    wordCandidateSelected st w = st := by
  have hf : st.lastCandidates.find? (fun c => c.word = w) = none := by
    rw [List.find?_eq_none]
    intro c hc
    simpa using h c hc
  rw [wordCandidateSelected, hf]

/-- Witness for `wordCandidateSelected_desync_noop` at a concrete state. -/
theorem wordCandidateSelected_desync_noop_witness :
    wordCandidateSelected
        ⟨[⟨["ni"], "N1", 4⟩], ⟨[]⟩, [⟨"N1", ["ni"], 4, 0, 0⟩], "k"⟩ "H2"
      = ⟨[⟨["ni"], "N1", 4⟩], ⟨[]⟩, [⟨"N1", ["ni"], 4, 0, 0⟩], "k"⟩ :=
  wordCandidateSelected_desync_noop _ _ (by decide)

/-- Modelled from the spec: the baseScore the Lexicon Index currently holds
for (sequence, word); 0 when no matching entry exists. -/
def Lexicon.entryScore (lex : Lexicon) (s : SyllableSequence) (w : String) : Int :=
  match lex.find? (fun d => d.key = s ∧ d.word = w) with
  | some d => d.baseScore
  | none => 0

/-- Modelled from the spec: a word's combinedRank as the Context Scorer
computes it from the current Lexicon Index and ContextModel state. -/
def wordRank (wts : ScoreWeights) (lex : Lexicon) (m : ContextModel)
    (ck : String) (s : SyllableSequence) (w : String) : Int :=
  lex.entryScore s w * wts.w1 + m.boost ck w * wts.w2

/-- A map whose function preserves a predicate commutes with `find?`. -/
theorem find?_map_presv {α : Type} (f : α → α) (p : α → Bool)
    (hp : ∀ a, p (f a) = p a) (l : List α) :
    (l.map f).find? p = (l.find? p).map f := by
  induction l with
  | nil => rfl
  | cons a as ih =>
    by_cases h : p a = true
    · rw [List.map_cons, List.find?_cons_of_pos _ (by rw [hp]; exact h),
        List.find?_cons_of_pos _ h, Option.map_some']
    · rw [List.map_cons, List.find?_cons_of_neg _ (by rw [hp]; exact h),
        List.find?_cons_of_neg _ h, ih]

/-- Reinforcing (s0, w) never lowers the score the index holds for w under
any sequence. -/
theorem entryScore_reinforce_self (lex : Lexicon) (s0 : SyllableSequence)
    (w : String) (s : SyllableSequence) :
    lex.entryScore s w ≤ (lex.reinforce s0 w).entryScore s w := by
  unfold Lexicon.reinforce
  by_cases hg : lex.any (fun d => d.key = s0 ∧ d.word = w) = true
  · rw [if_pos hg]
    unfold Lexicon.entryScore
    rw [find?_map_presv _ _ (fun a => by
      by_cases ha : a.key = s0 ∧ a.word = w <;> simp [ha])]
    cases hf : lex.find? (fun d => decide (d.key = s ∧ d.word = w)) with
    | none => simp
    | some d =>
      by_cases hd : d.key = s0 ∧ d.word = w <;> simp [hd]
  · rw [if_neg hg]

/-- Reinforcing (s0, w) leaves every other word's entry score unchanged. -/
theorem entryScore_reinforce_other (lex : Lexicon) (s0 : SyllableSequence)
    (w : String) (su : SyllableSequence) (u : String) (hne : u ≠ w) :
    (lex.reinforce s0 w).entryScore su u = lex.entryScore su u := by
  unfold Lexicon.reinforce
  by_cases hg : lex.any (fun d => d.key = s0 ∧ d.word = w) = true
  · rw [if_pos hg]
    unfold Lexicon.entryScore
    rw [find?_map_presv _ _ (fun a => by
      by_cases ha : a.key = s0 ∧ a.word = w <;> simp [ha])]
    cases hf : lex.find? (fun d => decide (d.key = su ∧ d.word = u)) with
    | none => simp
    | some d =>
      have hdu : d.word = u := by
        have := List.find?_some hf
        simp at this
        exact this.2
      have hd : ¬(d.key = s0 ∧ d.word = w) := by
        rintro ⟨_, hw⟩
        exact hne (hdu ▸ hw)
      simp [hd]
  · rw [if_neg hg]

/-- Boosting (ck0, w) never lowers w's context boost under any key. -/
theorem boost_reinforce_self (m : ContextModel) (ck0 : String) (w : String)
    (ck : String) :
    m.boost ck w ≤ (m.reinforce ck0 w).boost ck w := by
  unfold ContextModel.reinforce
  by_cases hg : m.boosts.any (fun p => p.1 = (ck0, w)) = true
  · rw [if_pos hg]
    unfold ContextModel.boost
    rw [find?_map_presv _ _ (fun a => by
      by_cases ha : a.1 = (ck0, w) <;> simp [ha])]
    cases hf : m.boosts.find? (fun p => decide (p.1 = (ck, w))) with
    | none => simp
    | some q =>
      by_cases hq : q.1 = (ck0, w) <;> simp [hq]
  · rw [if_neg hg]
    unfold ContextModel.boost
    rw [List.find?_append]
    cases hf : m.boosts.find? (fun p => decide (p.1 = (ck, w))) with
    | none =>
      simp only [Option.none_or]
      by_cases hck : ((ck0, w) : String × String) = (ck, w)
      · simp [List.find?, hck]
      · simp [List.find?, hck]
    | some q => simp

/-- Boosting (ck0, w) leaves every other word's context boost unchanged. -/
theorem boost_reinforce_other (m : ContextModel) (ck0 : String) (w : String)
    (ck : String) (u : String) (hne : u ≠ w) :
    (m.reinforce ck0 w).boost ck u = m.boost ck u := by
  unfold ContextModel.reinforce
  by_cases hg : m.boosts.any (fun p => p.1 = (ck0, w)) = true
  · rw [if_pos hg]
    unfold ContextModel.boost
    rw [find?_map_presv _ _ (fun a => by
      by_cases ha : a.1 = (ck0, w) <;> simp [ha])]
    cases hf : m.boosts.find? (fun p => decide (p.1 = (ck, u))) with
    | none => simp
    | some q =>
      have hqu : q.1 = (ck, u) := by
        have := List.find?_some hf
        simpa using this
      have hq : ¬(q.1 = (ck0, w)) := by
        rw [hqu]
        intro hq
        have hsnd := congrArg Prod.snd hq
        simp at hsnd
        exact hne hsnd
      simp [hq]
  · rw [if_neg hg]
    unfold ContextModel.boost
    rw [List.find?_append]
    cases hf : m.boosts.find? (fun p => decide (p.1 = (ck, u))) with
    | none =>
      have hck : ¬(((ck0, w) : String × String) = (ck, u)) := by
        intro hq
        have hsnd := congrArg Prod.snd hq
        simp at hsnd
        exact hne hsnd.symm
      simp [List.find?, hck]
    | some q => simp

/-- C3: reinforcement is monotone: for any context key, a selection of word
w (applied through wordCandidateSelected followed by the reinforce calls it
makes) never lowers w's combinedRank, leaves every distinct word u
unchanged, and thus never decreases w's rank relative to candidates that
were not reinforced; this holds at each repeated selection. -/
theorem reinforce_monotone_rank (wts : ScoreWeights) (st : AdapterState)
    (w u : String) (s su : SyllableSequence) (ck : String)
    (hw1 : 0 ≤ wts.w1) (hw2 : 0 ≤ wts.w2) (hne : u ≠ w) :
    wordRank wts st.lexicon st.contextModel ck s w ≤
      wordRank wts (wordCandidateSelected st w).lexicon
        (wordCandidateSelected st w).contextModel ck s w ∧
    wordRank wts (wordCandidateSelected st w).lexicon
        (wordCandidateSelected st w).contextModel ck su u =
      wordRank wts st.lexicon st.contextModel ck su u ∧
    wordRank wts st.lexicon st.contextModel ck s w -
        wordRank wts st.lexicon st.contextModel ck su u ≤
      wordRank wts (wordCandidateSelected st w).lexicon
          (wordCandidateSelected st w).contextModel ck s w -
        wordRank wts (wordCandidateSelected st w).lexicon
          (wordCandidateSelected st w).contextModel ck su u := by
  unfold wordCandidateSelected
  cases hf : st.lastCandidates.find? (fun c => c.word = w) with
  | none =>
    refine ⟨le_refl _, rfl, le_refl _⟩
  | some c =>
    simp only
    unfold wordRank
    have h1 := entryScore_reinforce_self st.lexicon c.sourceSequence w s
    have h2 := entryScore_reinforce_other st.lexicon c.sourceSequence w su u hne
    have h3 := boost_reinforce_self st.contextModel st.lastContextKey w ck
    have h4 := boost_reinforce_other st.contextModel st.lastContextKey w ck u hne
    refine ⟨?_, by rw [h2, h4], ?_⟩
    · have := add_le_add (mul_le_mul_of_nonneg_right h1 hw1)
        (mul_le_mul_of_nonneg_right h3 hw2)
      exact this
    · rw [h2, h4]
      have := add_le_add (mul_le_mul_of_nonneg_right h1 hw1)
        (mul_le_mul_of_nonneg_right h3 hw2)
      omega

/-- Witness for `reinforce_monotone_rank` at a concrete state. -/
theorem reinforce_monotone_rank_witness :
    wordRank ⟨2, 3⟩ [⟨["ni"], "N1", 4⟩, ⟨["ha"], "H2", 9⟩] ⟨[]⟩ "k" ["ni"] "N1" ≤
      wordRank ⟨2, 3⟩
        (wordCandidateSelected
          ⟨[⟨["ni"], "N1", 4⟩, ⟨["ha"], "H2", 9⟩], ⟨[]⟩,
            [⟨"N1", ["ni"], 4, 0, 0⟩], "k"⟩ "N1").lexicon
        (wordCandidateSelected
          ⟨[⟨["ni"], "N1", 4⟩, ⟨["ha"], "H2", 9⟩], ⟨[]⟩,
            [⟨"N1", ["ni"], 4, 0, 0⟩], "k"⟩ "N1").contextModel
        "k" ["ni"] "N1" :=
  (reinforce_monotone_rank ⟨2, 3⟩
    ⟨[⟨["ni"], "N1", 4⟩, ⟨["ha"], "H2", 9⟩], ⟨[]⟩, [⟨"N1", ["ni"], 4, 0, 0⟩], "k"⟩
    "N1" "H2" ["ni"] ["ha"] "k" (by decide) (by decide) (by decide)).1

/-- Modelled from the spec: the events at the asynchronous boundary — the
host's predict requests and the worker's completions, each completion
carrying the preedit value it answers together with its suggestion list. -/
inductive Event where
  | request (surroundingLeft preedit : String)
  | complete (preedit : String) (suggestions : List String)
  deriving Repr, DecidableEq

/-- Whether an event is a predict request. -/
def Event.isRequest : Event → Bool
  | .request _ _ => true
  | .complete _ _ => false

/-- Modelled from the spec: the delivery state at the host boundary — the
latest request's preedit and the results actually delivered, in order. -/
structure AsyncState where
  latestPreedit : Option String
  delivered : List (String × List String)
  deriving Repr, DecidableEq

/-- Modelled from the spec: a new request supersedes the previous one; a
completion is delivered only when it matches the latest request's preedit,
and a stale completion is dropped silently. -/
def stepEvent (st : AsyncState) : Event → AsyncState
  | .request _ pre => { st with latestPreedit := some pre }
  | .complete pre sugg =>
      if st.latestPreedit = some pre then
        { st with delivered := st.delivered ++ [(pre, sugg)] }
      else st

/-- Modelled from the spec: the delivery state after a sequence of boundary
events. -/
def runEvents (st : AsyncState) (es : List Event) : AsyncState :=
  es.foldl stepEvent st

/-- While no further request arrives, every newly delivered result carries
the latest request's preedit tag. -/
theorem runEvents_delivered_tagged (Q : String) (es : List Event)
    (hes : ∀ e ∈ es, e.isRequest = false) (st : AsyncState)
    (hQ : st.latestPreedit = some Q) :
    ∀ d ∈ (runEvents st es).delivered, d ∈ st.delivered ∨ d.1 = Q := by
  induction es generalizing st with
  | nil => exact fun d hd => Or.inl hd
  | cons e es ih =>
    intro d hd
    cases e with
    | request a b =>
      exact absurd (hes _ (List.mem_cons_self _ _)) (by simp [Event.isRequest])
    | complete pre sugg =>
      have hes' : ∀ e ∈ es, e.isRequest = false :=
        fun e he => hes e (List.mem_cons_of_mem _ he)
      rw [runEvents, List.foldl_cons] at hd
      by_cases hp : st.latestPreedit = some pre
      · have hst : stepEvent st (.complete pre sugg) =
            { st with delivered := st.delivered ++ [(pre, sugg)] } := by
          rw [stepEvent, if_pos hp]
        rw [hst] at hd
        have hrec := ih hes' _ (by simpa using hQ) d hd
        rcases hrec with hmem | htag
        · rcases List.mem_append.mp hmem with h1 | h2
          · exact Or.inl h1
          · right
            have hdp : d = (pre, sugg) := by simpa using h2
            have hpq : pre = Q := by
              rw [hQ] at hp
              exact (Option.some.inj hp).symm
            rw [hdp, hpq]
        · exact Or.inr htag
      · have hst : stepEvent st (.complete pre sugg) = st := by
          rw [stepEvent, if_neg hp]
        rw [hst] at hd
        exact ih hes' _ hQ d hd

/-- C2: predict on P followed immediately by predict on a different P2 ---
for any completion events that then arrive, every result delivered after
the two requests carries P2's preedit tag and never P's: the stale result
for the superseded P is dropped silently. -/
theorem predict_supersession (P P2 cL cL2 : String) (hne : P ≠ P2)
    (st0 : AsyncState) (es : List Event)
    (hes : ∀ e ∈ es, e.isRequest = false)
    (d : String × List String)
    (hd : d ∈ (runEvents st0
      ([Event.request cL P, Event.request cL2 P2] ++ es)).delivered) :
    d ∈ st0.delivered ∨ (d.1 = P2 ∧ d.1 ≠ P) := by
  have hrun : runEvents st0 ([Event.request cL P, Event.request cL2 P2] ++ es)
      = runEvents ⟨some P2, st0.delivered⟩ es := rfl
  rw [hrun] at hd
  have h := runEvents_delivered_tagged P2 es hes ⟨some P2, st0.delivered⟩ rfl d hd
  rcases h with hmem | htag
  · exact Or.inl hmem
  · refine Or.inr ⟨htag, ?_⟩
    intro hP
    exact hne (hP ▸ htag)

/-- Witness for `predict_supersession` at a concrete event trace. -/
theorem predict_supersession_witness :
    ("h", ["Y"]) ∈ (runEvents ⟨none, []⟩
        ([Event.request "" "n", Event.request "" "h"] ++
          [Event.complete "n" ["X"], Event.complete "h" ["Y"]])).delivered ∧
    (("h", ["Y"]).1 = "h" ∧ ("h", ["Y"]).1 ≠ "n") := by
  refine ⟨by decide, ?_⟩
  have h := predict_supersession "n" "h" "" "" (by decide) ⟨none, []⟩
    [Event.complete "n" ["X"], Event.complete "h" ["Y"]] (by decide)
    ("h", ["Y"]) (by decide)
  exact h.resolve_left (by decide)

/-- C6: Round-trip: for every LexiconEntry, inserting it into the Lexicon
Index and then calling lookup with its exact SyllableSequence returns a
result set containing that entry with the original word string intact —
in exact-match mode, hence also in prefix-match mode. -/
theorem lexicon_insert_lookup_roundtrip (lex : Lexicon) (e : LexiconEntry) :
    (∃ d ∈ (lex.insert e).lookupExact e.key, d.word = e.word ∧ d.key = e.key) ∧
    ∃ d ∈ (lex.insert e).lookup e.key, d.word = e.word ∧ d.key = e.key := by
  have hmain : ∃ d ∈ (lex.insert e).lookupExact e.key, d.word = e.word ∧ d.key = e.key := by
    unfold Lexicon.insert
    by_cases h : lex.any (fun d => d.key = e.key ∧ d.word = e.word)
    · simp only [h, if_pos]
      rw [List.any_eq_true] at h
      obtain ⟨d0, hd0mem, hd0⟩ := h
      simp only [decide_eq_true_eq] at hd0
      refine ⟨{ d0 with baseScore := d0.baseScore + e.baseScore }, ?_, ?_, ?_⟩
      · unfold Lexicon.lookupExact
        rw [List.mem_filter]
        constructor
        · rw [List.mem_map]
          exact ⟨d0, hd0mem, by simp [hd0.1, hd0.2]⟩
        · simp [hd0.1]
      · exact hd0.2
      · exact hd0.1
    · simp only [h, if_neg, Bool.false_eq_true, not_false_iff]
      refine ⟨e, ?_, rfl, rfl⟩
      unfold Lexicon.lookupExact
      rw [List.mem_filter]
      exact ⟨List.mem_append_right _ (List.mem_singleton.mpr rfl), by simp⟩
  refine ⟨hmain, ?_⟩
  obtain ⟨d, hdmem, hd⟩ := hmain
  refine ⟨d, ?_, hd⟩
  unfold Lexicon.lookupExact at hdmem
  unfold Lexicon.lookup
  rw [List.mem_filter] at hdmem ⊢
  refine ⟨hdmem.1, ?_⟩
  have : d.key = e.key := by simpa using hdmem.2
  simp [this, List.isPrefixOf_iff_prefix]

/-- The state of the `PinyinPlugin` object of
`src/plugins/pinyin/src/pinyinplugin.h`: its two data members,
`PinyinAdapter* pinyinAdapter` and
`ChineseLanguageFeatures* m_chineseLanguageFeatures`. -/
structure PinyinPluginState where
  pinyinAdapter : AdapterState
  m_chineseLanguageFeatures : ChineseLanguageFeaturesState
  deriving Repr, DecidableEq

namespace PinyinPlugin

/-- Embeds the inline body in pinyinplugin.h:
`void spellCheckerSuggest(const QString& word, int limit)
\x7b Q_UNUSED(word); Q_UNUSED(limit); \x7d` — both arguments are unused and
nothing is computed or mutated. -/
def spellCheckerSuggest (st : PinyinPluginState) (word : String) (limit : Int) :
    PinyinPluginState :=
  st

/-- Embeds the inline body in pinyinplugin.h:
`void addToSpellCheckerUserWordList(const QString& word)
\x7b Q_UNUSED(word); \x7d` — the argument is unused and nothing happens. -/
def addToSpellCheckerUserWordList (st : PinyinPluginState) (word : String) :
    PinyinPluginState :=
  st

/-- Embeds the inline body in pinyinplugin.h:
`bool setLanguage(const QString& languageId)
\x7b Q_UNUSED(languageId); return false; \x7d` — the argument is unused and
the plugin returns false without touching any state. -/
def setLanguage (st : PinyinPluginState) (languageId : String) :
    PinyinPluginState × Bool :=
  (st, false)

/-- Modelled from the spec: `languageFeature()` is declared in
pinyinplugin.h but its body is outside the sources; per the spec the query
is forwarded to (returns) the LanguageFeatures object. -/
def languageFeature (st : PinyinPluginState) : ChineseLanguageFeaturesState :=
  st.m_chineseLanguageFeatures

end PinyinPlugin

/-- Following the spec's words, for comparison with the source: a
setLanguage forwarded to the LanguageFeatures object would succeed exactly
when the features object accepts the language id, updating the features
object's current language id. -/
def setLanguageForwardedSpec (st : PinyinPluginState) (languageId : String) :
    PinyinPluginState × Bool :=
  if languageId ∈ st.m_chineseLanguageFeatures.acceptedLanguageIds then
    ({ st with m_chineseLanguageFeatures :=
        { st.m_chineseLanguageFeatures with languageId := languageId } }, true)
  else
    (st, false)

/-- C8: the spell-check surface is inert: for every word and limit,
spellCheckerSuggest and addToSpellCheckerUserWordList perform no computation
and leave the whole plugin state (adapter with its Lexicon Index and
ContextModel, and the LanguageFeatures member) unchanged. -/
theorem spellcheck_surface_inert :
    (∀ (st : PinyinPluginState) (word : String) (limit : Int),
        PinyinPlugin.spellCheckerSuggest st word limit = st) ∧
    (∀ (st : PinyinPluginState) (word : String),
        PinyinPlugin.addToSpellCheckerUserWordList st word = st) :=
  ⟨fun _ _ _ => rfl, fun _ _ => rfl⟩

/-- C9 as stated fails on the code: at a concrete plugin state whose
LanguageFeatures object accepts the id "zh", a setLanguage forwarded to
LanguageFeatures would succeed and record the id, while the plugin's actual
setLanguage is an inline stub handled in the plugin itself that still
returns false and leaves the LanguageFeatures object untouched. -/
theorem setLanguage_not_forwarded :
    setLanguageForwardedSpec
        ⟨⟨[], ⟨[]⟩, [], ""⟩, ⟨[], 5, true, "", ["zh"]⟩⟩ "zh" ≠
      PinyinPlugin.setLanguage
        ⟨⟨[], ⟨[]⟩, [], ""⟩, ⟨[], 5, true, "", ["zh"]⟩⟩ "zh" := by
  decide

/-- C9 amended: the language-feature query is forwarded — languageFeature
returns the LanguageFeatures object — while setLanguage is handled in the
plugin itself as an inline stub that ignores the language id and always
returns false without consulting or updating LanguageFeatures. -/
theorem capability_query_forwarding :
    (∀ st : PinyinPluginState,
        PinyinPlugin.languageFeature st = st.m_chineseLanguageFeatures) ∧
    (∀ (st : PinyinPluginState) (languageId : String),
        PinyinPlugin.setLanguage st languageId = (st, false)) :=
  ⟨fun _ => rfl, fun _ _ => rfl⟩

/-- C10: for every languageId and plugin state, setLanguage returns false
and leaves the plugin state unchanged; no languageId makes it succeed. -/
theorem setLanguage_always_false :
    ∀ (st : PinyinPluginState) (languageId : String),
      (PinyinPlugin.setLanguage st languageId).2 = false ∧
      (PinyinPlugin.setLanguage st languageId).1 = st :=
  fun _ _ => ⟨rfl, rfl⟩

end KeyboardComponent
